import Mathlib

/-!
Shallow embedding of `src/mitiq/cdr/mcmc_circuit_generator.py`
(class `MCMCCircuitGenerator`), together with the pieces of its
environment that the verified claims depend on.

Modelling conventions:
  * An `Operation` records its gate payload, its qubit assignment and the
    verdict of the external gate classifier (`cirq.has_stabilizer_effect`),
    which the spec places out of scope and which is therefore carried as
    data on the operation.
  * A `Circuit` is the ordered list of its operations
    (`list(circuit.all_operations())` / `Circuit(operations)`).
  * Python floats are modelled as real numbers.
  * The executor (external oracle) is a function from circuits to reals;
    `executor.evaluate([c], observable)[0]` is `e c`.
  * The seeded random source `self._random_state` feeds only
    `RandomCircuitGenerator._map_to_near_clifford`, so the successive
    outputs of that call are abstracted as a stream
    `proposals : Nat -> List Operation` (round k of the walk uses
    `proposals k`).
  * `random.random()` draws from the global, unseeded `random` module; its
    successive values are a second stream `us : Nat -> Real`, one draw per
    proposal round.
  * The `while` loop is modelled with explicit fuel (the loop has no
    internal iteration cap, so it need not terminate): the result is
    `none` when `fuel` proposal rounds do not suffice, otherwise
    `some (circuits, calls)` where `calls` counts executor evaluations
    (one for the mean plus one per proposal round).
-/

namespace MitiqCdr

structure Operation where
  gate : ℕ
  qubits : List ℕ
  clifford : Bool
deriving DecidableEq

/-- External gate classifier `cirq.has_stabilizer_effect`, abstracted as
the verdict carried on the operation. -/
def hasStabilizerEffect (op : Operation) : Bool := op.clifford

abbrev Circuit := List Operation

/-- Python `enumerate`, starting at a given index. -/
def enumFrom : ℕ → List Operation → List (ℕ × Operation)
  | _, [] => []
  | i, op :: rest => (i, op) :: enumFrom (i + 1) rest

/-- The array `[[i, op] for i, op in enumerate(operations)
if not cirq.has_stabilizer_effect(op)]`. -/
def nonCliffordPairs (ops : List Operation) : List (ℕ × Operation) :=
  (enumFrom 0 ops).filter (fun p => !hasStabilizerEffect p.2)

/-- `non_clifford_indices = np.int32(non_clifford_indices_and_ops[:, 0])`. -/
def nonCliffordIndices (ops : List Operation) : List ℕ :=
  (nonCliffordPairs ops).map Prod.fst

/-- `non_clifford_ops = non_clifford_indices_and_ops[:, 1]`. -/
def nonCliffordOps (ops : List Operation) : List Operation :=
  (nonCliffordPairs ops).map Prod.snd

/-- The numpy fancy-index assignment `operations[non_clifford_indices] =
new_ops`: position `idx[k]` is overwritten with `newOps[k]`. -/
def spliceOps : List Operation → List ℕ → List Operation → List Operation
  | ops, i :: idx, x :: newOps => spliceOps (ops.set i x) idx newOps
  | ops, _, _ => ops

/-- `MCMCCircuitGenerator.likelihood`:
`constants = (1 / sigma) * (1 / np.sqrt(2 * np.pi))`,
`exponentiation = np.exp(-0.5 * ((x - mu) / sigma) ** 2)`,
returning `constants * exponentiation`. -/
noncomputable def likelihood (x sigma mu : ℝ) : ℝ :=
  ((1 / sigma) * (1 / Real.sqrt (2 * Real.pi))) *
    Real.exp (-0.5 * (((x - mu) / sigma) ^ 2))

/-- The `while len(near_clifford_circuits) < num_circuits_to_generate`
loop of `MCMCCircuitGenerator.generate_circuits`, with explicit fuel.
State: `k` is the number of completed proposal rounds (each consumed one
`proposals` draw, one `us` draw and one executor call), `ops` is the
in-place mutated `operations` array, `last` is `last_expectation_value`
and `acc` is `near_clifford_circuits`.  On exit the call count is `k + 1`
(the mean evaluation plus one evaluation per round). -/
noncomputable def mcmcLoop (idx : List ℕ) (mean sigma : ℝ)
    (proposals : ℕ → List Operation) (e : Circuit → ℝ) (us : ℕ → ℝ)
    (n : ℤ) :
    ℕ → ℕ → List Operation → ℝ → List Circuit → Option (List Circuit × ℕ)
  | 0, k, _, _, acc =>
      if (acc.length : ℤ) < n then none else some (acc, k + 1)
  | fuel + 1, k, ops, last, acc =>
      if (acc.length : ℤ) < n then
        let newOps := proposals k
        let ops' := spliceOps ops idx newOps
        let candidate : Circuit := ops'
        let cev := |e candidate|
        if us k < min 1 (likelihood cev sigma mean /
            likelihood last sigma mean) then
          mcmcLoop idx mean sigma proposals e us n fuel (k + 1) ops' cev
            (acc ++ [candidate])
        else
          mcmcLoop idx mean sigma proposals e us n fuel (k + 1) ops' last acc
      else some (acc, k + 1)

/-- `MCMCCircuitGenerator.generate_circuits` (single-circuit path of the
one-to-many adapter).  Enumerates the operations, returns
`[circuit] * n` when no operation is non-Clifford, otherwise evaluates the
mean once and runs the Metropolis-Hastings loop. -/
noncomputable def generate_circuits (circuit : Circuit) (n : ℤ) (sigma : ℝ)
    (proposals : ℕ → List Operation) (e : Circuit → ℝ) (us : ℕ → ℝ)
    (fuel : ℕ) : Option (List Circuit × ℕ) :=
  let operations := circuit
  if (nonCliffordPairs operations).length = 0 then
    some (List.replicate n.toNat circuit, 0)
  else
    let mean := |e circuit|
    mcmcLoop (nonCliffordIndices operations) mean sigma proposals e us n
      fuel 0 operations mean []

/-- Likelihood exactly as the spec words it:
`likelihood(x) = (1/(sigma * sqrt(2 pi))) * exp(-(1/2) ((x - mu)/sigma)^2)`. -/
noncomputable def likelihood_spec (x sigma mu : ℝ) : ℝ :=
  (1 / (sigma * Real.sqrt (2 * Real.pi))) *
    Real.exp (-(1 / 2) * (((x - mu) / sigma) ^ 2))

/-- Acceptance probability as the spec words it:
`min(1, likelihood(candidate)/likelihood(last))`, both centered at the
mean with spread sigma. -/
noncomputable def acceptance_probability (cand last sigma mu : ℝ) : ℝ :=
  min 1 (likelihood_spec cand sigma mu / likelihood_spec last sigma mu)

/-- The walk of spec section 4.4 step 3, worded with `likelihood_spec` and
`acceptance_probability`: propose, evaluate, accept exactly when the
uniform draw is below the acceptance probability, appending the candidate
and updating the last-accepted value on acceptance and keeping the last
value on rejection. -/
noncomputable def mcmcLoopSpec (idx : List ℕ) (mean sigma : ℝ)
    (proposals : ℕ → List Operation) (e : Circuit → ℝ) (us : ℕ → ℝ)
    (n : ℤ) :
    ℕ → ℕ → List Operation → ℝ → List Circuit → Option (List Circuit × ℕ)
  | 0, k, _, _, acc =>
      if (acc.length : ℤ) < n then none else some (acc, k + 1)
  | fuel + 1, k, ops, last, acc =>
      if (acc.length : ℤ) < n then
        let ops' := spliceOps ops idx (proposals k)
        let cev := |e ops'|
        if us k < acceptance_probability cev last sigma mean then
          mcmcLoopSpec idx mean sigma proposals e us n fuel (k + 1) ops' cev
            (acc ++ [ops'])
        else
          mcmcLoopSpec idx mean sigma proposals e us n fuel (k + 1) ops'
            last acc
      else some (acc, k + 1)

/-- Spec-side description of `generate_circuits`: mean evaluated once,
last-accepted value initialized to it, degenerate circuits returned
verbatim, otherwise the spec walk. -/
noncomputable def generate_circuits_spec (circuit : Circuit) (n : ℤ)
    (sigma : ℝ) (proposals : ℕ → List Operation) (e : Circuit → ℝ)
    (us : ℕ → ℝ) (fuel : ℕ) : Option (List Circuit × ℕ) :=
  if (nonCliffordPairs circuit).length = 0 then
    some (List.replicate n.toNat circuit, 0)
  else
    mcmcLoopSpec (nonCliffordIndices circuit) (|e circuit|) sigma proposals
      e us n fuel 0 circuit (|e circuit|) []

/-- Variant of the loop in which every candidate is built by splicing the
replacement draw of its own round into the ORIGINAL operation list,
instead of threading the mutated array from round to round. -/
noncomputable def mcmcLoopFresh (orig : List Operation) (idx : List ℕ)
    (mean sigma : ℝ) (proposals : ℕ → List Operation) (e : Circuit → ℝ)
    (us : ℕ → ℝ) (n : ℤ) :
    ℕ → ℕ → ℝ → List Circuit → Option (List Circuit × ℕ)
  | 0, k, _, acc =>
      if (acc.length : ℤ) < n then none else some (acc, k + 1)
  | fuel + 1, k, last, acc =>
      if (acc.length : ℤ) < n then
        let candidate := spliceOps orig idx (proposals k)
        let cev := |e candidate|
        if us k < min 1 (likelihood cev sigma mean /
            likelihood last sigma mean) then
          mcmcLoopFresh orig idx mean sigma proposals e us n fuel (k + 1)
            cev (acc ++ [candidate])
        else
          mcmcLoopFresh orig idx mean sigma proposals e us n fuel (k + 1)
            last acc
      else some (acc, k + 1)

/-- `generate_circuits` with fresh candidate construction each round. -/
noncomputable def generate_fresh (circuit : Circuit) (n : ℤ) (sigma : ℝ)
    (proposals : ℕ → List Operation) (e : Circuit → ℝ) (us : ℕ → ℝ)
    (fuel : ℕ) : Option (List Circuit × ℕ) :=
  if (nonCliffordPairs circuit).length = 0 then
    some (List.replicate n.toNat circuit, 0)
  else
    mcmcLoopFresh circuit (nonCliffordIndices circuit) (|e circuit|) sigma
      proposals e us n fuel 0 (|e circuit|) []

/-- Modelled from the spec: the contract of
`RandomCircuitGenerator._map_to_near_clifford` (defined in
`mitiq/cdr/random_circuit_generator.py`, which is not part of the sources
under verification).  Spec section 4.2: given an array of non-Clifford
operations, the mapper returns an "array of same length, one Clifford
operation per input, preserving qubit assignment". -/
def NearCliffordMap (input output : List Operation) : Prop :=
  List.Forall₂
    (fun a b => hasStabilizerEffect b = true ∧ b.qubits = a.qubits)
    input output

/-- The set of qubits a circuit touches. -/
def qubitSet (c : Circuit) : Finset ℕ :=
  c.foldr (fun op s => op.qubits.toFinset ∪ s) ∅

/-! Concrete inputs used by witnesses and counterexamples. -/

/-- A single non-Clifford operation on qubit 0. -/
def opNC : Operation := ⟨0, [0], false⟩

/-- A single Clifford operation on qubit 0, with gate payload `g`. -/
def opCl (g : ℕ) : Operation := ⟨g, [0], true⟩

/-- One-operation circuit whose only operation is non-Clifford. -/
def circNC : Circuit := [opNC]

/-- One-operation circuit whose only operation is Clifford. -/
def circCl : Circuit := [opCl 0]

/-- Two-operation circuit: a Clifford operation followed by a
non-Clifford one. -/
def circMix : Circuit := [opCl 7, opNC]

/-- A mapper stream that proposes a distinct Clifford replacement each
round. -/
def proposalsW (k : ℕ) : List Operation := [opCl (k + 1)]

/-- Executor returning 0 everywhere. -/
def execZero (_ : Circuit) : ℝ := 0

/-- Executor returning 2 on the round-0 candidate of `proposalsW` and 0
elsewhere. -/
noncomputable def execSplit (c : Circuit) : ℝ := if c = [opCl 1] then 2 else 0

/-- Global-random stream that always draws 0. -/
def usZero (_ : ℕ) : ℝ := 0

/-- Global-random stream drawing 0.9 on round 0 and 0 afterwards. -/
noncomputable def usHigh (k : ℕ) : ℝ := if k = 0 then 0.9 else 0

/-! Toolkit: behavior of the fancy-index assignment `spliceOps`. -/

theorem spliceOps_length (idx : List ℕ) :
    ∀ (newOps ops : List Operation),
      (spliceOps ops idx newOps).length = ops.length := by
  induction idx with
  | nil => intro newOps ops; simp [spliceOps]
  | cons i idx ih =>
    intro newOps ops
    cases newOps with
    | nil => simp [spliceOps]
    | cons x xs => simp [spliceOps, ih, List.length_set]

theorem spliceOps_getElem?_not_mem {j : ℕ} (idx : List ℕ) :
    ∀ (newOps ops : List Operation), j ∉ idx →
      (spliceOps ops idx newOps)[j]? = ops[j]? := by
  induction idx with
  | nil => intro newOps ops _; simp [spliceOps]
  | cons i idx ih =>
    intro newOps ops hj
    cases newOps with
    | nil => simp [spliceOps]
    | cons x xs =>
      have hji : j ≠ i := fun h => hj (h ▸ List.mem_cons_self i idx)
      have hjrest : j ∉ idx := fun h => hj (List.mem_cons_of_mem i h)
      simp only [spliceOps]
      rw [ih xs (ops.set i x) hjrest, List.getElem?_set_ne (Ne.symm hji)]

theorem spliceOps_getElem?_at_idx (idx : List ℕ) :
    ∀ (newOps ops : List Operation) (k : ℕ) (hk : k < idx.length),
      idx.Nodup → newOps.length = idx.length →
      idx.get ⟨k, hk⟩ < ops.length →
      (spliceOps ops idx newOps)[idx.get ⟨k, hk⟩]? = newOps[k]? := by
  induction idx with
  | nil => intro _ _ k hk; exact absurd hk (by simp)
  | cons i idx ih =>
    intro newOps ops k hk hnd hlen hlt
    cases newOps with
    | nil => simp at hlen
    | cons x xs =>
      have hxs : xs.length = idx.length := by simpa using hlen
      cases k with
      | zero =>
        have hi : i ∉ idx := fun hmem =>
          (List.pairwise_cons.mp hnd).1 i hmem rfl
        simp only [List.get] at hlt ⊢
        rw [spliceOps, spliceOps_getElem?_not_mem idx xs (ops.set i x) hi,
          List.getElem?_set_eq_of_lt x hlt]
        simp
      | succ k =>
        simp only [List.get] at hlt ⊢
        rw [spliceOps]
        have := ih xs (ops.set i x) k (by simpa using hk)
          (List.Nodup.of_cons hnd) hxs
          (by simpa [List.length_set] using hlt)
        simpa using this

theorem spliceOps_overwrite (idx : List ℕ) (prev newOps ops : List Operation)
    (hnd : idx.Nodup) (hnew : newOps.length = idx.length) :
    spliceOps (spliceOps ops idx prev) idx newOps =
      spliceOps ops idx newOps := by
  apply List.ext_getElem?
  intro j
  by_cases hj : j ∈ idx
  · obtain ⟨⟨k, hk⟩, hkj⟩ := List.mem_iff_get.mp hj
    by_cases hlt : j < ops.length
    · rw [← hkj]
      rw [spliceOps_getElem?_at_idx idx newOps (spliceOps ops idx prev) k hk
        hnd hnew (by rw [spliceOps_length]; exact hkj ▸ hlt)]
      rw [spliceOps_getElem?_at_idx idx newOps ops k hk hnd hnew
        (hkj ▸ hlt)]
    · have h1 : ops.length ≤ j := Nat.le_of_not_lt hlt
      rw [List.getElem?_eq_none (by
        rw [spliceOps_length, spliceOps_length]; exact h1)]
      rw [List.getElem?_eq_none (by rw [spliceOps_length]; exact h1)]
  · rw [spliceOps_getElem?_not_mem idx newOps (spliceOps ops idx prev) hj,
      spliceOps_getElem?_not_mem idx prev ops hj,
      spliceOps_getElem?_not_mem idx newOps ops hj]

/-! Toolkit: the enumerate-and-filter computation of the non-Clifford
index set. -/

theorem enumFrom_mem_iff :
    ∀ (ops : List Operation) (i j : ℕ) (op : Operation),
      (j, op) ∈ enumFrom i ops ↔ i ≤ j ∧ ops[j - i]? = some op := by
  intro ops
  induction ops with
  | nil => intro i j op; simp [enumFrom]
  | cons a rest ih =>
    intro i j op
    simp only [enumFrom, List.mem_cons, Prod.mk.injEq, ih]
    constructor
    · rintro (⟨rfl, rfl⟩ | ⟨hij, hget⟩)
      · exact ⟨le_refl _, by simp⟩
      · refine ⟨le_trans (Nat.le_succ i) hij, ?_⟩
        have : j - i = (j - (i + 1)) + 1 := by omega
        rw [this]
        simpa using hget
    · rintro ⟨hij, hget⟩
      rcases Nat.eq_or_lt_of_le hij with rfl | hlt
      · left
        simp at hget
        exact ⟨rfl, hget.symm⟩
      · right
        refine ⟨hlt, ?_⟩
        have : j - i = (j - (i + 1)) + 1 := by omega
        rw [this] at hget
        simpa using hget

theorem enumFrom_fst_le {ops : List Operation} {i : ℕ} {p : ℕ × Operation}
    (h : p ∈ enumFrom i ops) : i ≤ p.1 :=
  ((enumFrom_mem_iff ops i p.1 p.2).mp h).1

theorem enumFrom_pairwise :
    ∀ (ops : List Operation) (i : ℕ),
      (enumFrom i ops).Pairwise (fun p q => p.1 < q.1) := by
  intro ops
  induction ops with
  | nil => intro i; simp [enumFrom]
  | cons a rest ih =>
    intro i
    simp only [enumFrom, List.pairwise_cons]
    refine ⟨fun q hq => ?_, ih (i + 1)⟩
    exact Nat.lt_of_lt_of_le (Nat.lt_succ_self i) (enumFrom_fst_le hq)

theorem nonCliffordPairs_mem_iff {cir : Circuit} {j : ℕ} {op : Operation} :
    (j, op) ∈ nonCliffordPairs cir ↔
      cir[j]? = some op ∧ hasStabilizerEffect op = false := by
  simp only [nonCliffordPairs, List.mem_filter, enumFrom_mem_iff,
    Nat.zero_le, true_and, Nat.sub_zero, Bool.not_eq_eq_eq_not,
    Bool.not_true]

theorem nonCliffordIndices_pairwise (cir : Circuit) :
    (nonCliffordIndices cir).Pairwise (· < ·) := by
  unfold nonCliffordIndices nonCliffordPairs
  rw [List.pairwise_map]
  exact (enumFrom_pairwise cir 0).filter _

theorem nonCliffordIndices_nodup (cir : Circuit) :
    (nonCliffordIndices cir).Nodup :=
  (nonCliffordIndices_pairwise cir).imp Nat.ne_of_lt

theorem nonCliffordPairs_get (cir : Circuit) (k : ℕ)
    (hk : k < (nonCliffordPairs cir).length) :
    cir[((nonCliffordPairs cir).get ⟨k, hk⟩).1]? =
        some ((nonCliffordPairs cir).get ⟨k, hk⟩).2 ∧
      hasStabilizerEffect ((nonCliffordPairs cir).get ⟨k, hk⟩).2 = false := by
  have hmem : (nonCliffordPairs cir).get ⟨k, hk⟩ ∈ nonCliffordPairs cir :=
    List.get_mem _ k hk
  exact nonCliffordPairs_mem_iff.mp hmem

theorem mem_nonCliffordIndices_of_not_clifford {cir : Circuit} {j : ℕ}
    {op : Operation} (hget : cir[j]? = some op)
    (hnc : hasStabilizerEffect op = false) : j ∈ nonCliffordIndices cir := by
  unfold nonCliffordIndices
  exact List.mem_map.mpr
    ⟨(j, op), nonCliffordPairs_mem_iff.mpr ⟨hget, hnc⟩, rfl⟩

theorem clifford_of_not_mem_nonCliffordIndices {cir : Circuit} {j : ℕ}
    {op : Operation} (hget : cir[j]? = some op)
    (hj : j ∉ nonCliffordIndices cir) : hasStabilizerEffect op = true := by
  by_contra h
  exact hj (mem_nonCliffordIndices_of_not_clifford hget
    (Bool.not_eq_true _ ▸ Bool.of_not_eq_true h))

theorem nonCliffordPairs_eq_nil {cir : Circuit}
    (h : ∀ op ∈ cir, hasStabilizerEffect op = true) :
    nonCliffordPairs cir = [] := by
  unfold nonCliffordPairs
  apply List.filter_eq_nil_iff.mpr
  intro p hp
  have hsnd : p.2 ∈ cir := by
    obtain ⟨hle, hget⟩ := (enumFrom_mem_iff cir 0 p.1 p.2).mp hp
    exact List.getElem?_mem (by simpa using hget)
  simp [h p.2 hsnd]

/-! Toolkit: the likelihood function. -/

theorem likelihood_eq_spec (x sigma mu : ℝ) :
    likelihood x sigma mu = likelihood_spec x sigma mu := by
  unfold likelihood likelihood_spec
  rw [one_div_mul_one_div]
  norm_num

theorem likelihood_pos {sigma : ℝ} (hs : 0 < sigma) (x mu : ℝ) :
    0 < likelihood x sigma mu := by
  unfold likelihood
  apply mul_pos
  · apply mul_pos (one_div_pos.mpr hs)
    exact one_div_pos.mpr (Real.sqrt_pos.mpr (by positivity))
  · exact Real.exp_pos _

theorem likelihood_ne_zero {sigma : ℝ} (hs : sigma ≠ 0) (x mu : ℝ) :
    likelihood x sigma mu ≠ 0 := by
  unfold likelihood
  apply mul_ne_zero
  · apply mul_ne_zero (one_div_ne_zero hs)
    exact one_div_ne_zero
      (ne_of_gt (Real.sqrt_pos.mpr (by positivity)))
  · exact Real.exp_ne_zero _

theorem likelihood_self_ratio {sigma : ℝ} (hs : sigma ≠ 0) (x mu : ℝ) :
    likelihood x sigma mu / likelihood x sigma mu = 1 :=
  div_self (likelihood_ne_zero hs x mu)

/-! Toolkit: unfolding lemmas for the loop. -/

theorem mcmcLoop_exit {idx : List ℕ} {mean sigma : ℝ}
    {proposals : ℕ → List Operation} {e : Circuit → ℝ} {us : ℕ → ℝ}
    {n : ℤ} {fuel k : ℕ} {ops : List Operation} {last : ℝ}
    {acc : List Circuit} (h : ¬ ((acc.length : ℤ) < n)) :
    mcmcLoop idx mean sigma proposals e us n fuel k ops last acc =
      some (acc, k + 1) := by
  cases fuel <;> simp [mcmcLoop, h]

theorem mcmcLoop_step_accept {idx : List ℕ} {mean sigma : ℝ}
    {proposals : ℕ → List Operation} {e : Circuit → ℝ} {us : ℕ → ℝ}
    {n : ℤ} {fuel k : ℕ} {ops : List Operation} {last : ℝ}
    {acc : List Circuit} (h : (acc.length : ℤ) < n)
    (hacc : us k < min 1
      (likelihood (|e (spliceOps ops idx (proposals k))|) sigma mean /
        likelihood last sigma mean)) :
    mcmcLoop idx mean sigma proposals e us n (fuel + 1) k ops last acc =
      mcmcLoop idx mean sigma proposals e us n fuel (k + 1)
        (spliceOps ops idx (proposals k))
        (|e (spliceOps ops idx (proposals k))|)
        (acc ++ [spliceOps ops idx (proposals k)]) := by
  simp only [mcmcLoop, if_pos h, if_pos hacc]

theorem mcmcLoop_step_reject {idx : List ℕ} {mean sigma : ℝ}
    {proposals : ℕ → List Operation} {e : Circuit → ℝ} {us : ℕ → ℝ}
    {n : ℤ} {fuel k : ℕ} {ops : List Operation} {last : ℝ}
    {acc : List Circuit} (h : (acc.length : ℤ) < n)
    (hrej : ¬ (us k < min 1
      (likelihood (|e (spliceOps ops idx (proposals k))|) sigma mean /
        likelihood last sigma mean))) :
    mcmcLoop idx mean sigma proposals e us n (fuel + 1) k ops last acc =
      mcmcLoop idx mean sigma proposals e us n fuel (k + 1)
        (spliceOps ops idx (proposals k)) last acc := by
  simp only [mcmcLoop, if_pos h, if_neg hrej]

theorem mcmcLoop_eq_spec (idx : List ℕ) (mean sigma : ℝ)
    (p : ℕ → List Operation) (e : Circuit → ℝ) (u : ℕ → ℝ) (n : ℤ) :
    ∀ (fuel k : ℕ) (ops : List Operation) (last : ℝ) (acc : List Circuit),
      mcmcLoop idx mean sigma p e u n fuel k ops last acc =
        mcmcLoopSpec idx mean sigma p e u n fuel k ops last acc := by
  intro fuel
  induction fuel with
  | zero => intro k ops last acc; rfl
  | succ fuel ih =>
    intro k ops last acc
    simp only [mcmcLoop, mcmcLoopSpec, acceptance_probability,
      ← likelihood_eq_spec, ih]

/-- Claim C1: in `MCMCCircuitGenerator.generate_circuits` each proposed
candidate is accepted exactly when the uniform draw is below
`min(1, likelihood(candidate)/likelihood(last))`, with the likelihood the
Gaussian density `(1/(sigma sqrt(2 pi))) exp(-(1/2)((x - mu)/sigma)^2)`
centered at the absolute expectation value of the original circuit; on
acceptance the candidate is appended and the last-accepted value updated,
on rejection the last-accepted value is unchanged.  Stated as a
refinement: the source embedding coincides with the walk worded from the
spec (`likelihood_spec`, `acceptance_probability`, `mcmcLoopSpec`). -/
theorem C1_acceptance_rule_matches_spec (cir : Circuit) (n : ℤ) (sigma : ℝ)
    (p : ℕ → List Operation) (e : Circuit → ℝ) (u : ℕ → ℝ) (fuel : ℕ) :
    generate_circuits cir n sigma p e u fuel =
      generate_circuits_spec cir n sigma p e u fuel := by
  unfold generate_circuits generate_circuits_spec
  simp only [mcmcLoop_eq_spec]

theorem mcmcLoop_length (idx : List ℕ) (mean sigma : ℝ)
    (p : ℕ → List Operation) (e : Circuit → ℝ) (u : ℕ → ℝ) (n : ℤ) :
    ∀ (fuel k : ℕ) (ops : List Operation) (last : ℝ) (acc : List Circuit)
      (cs : List Circuit) (m : ℕ),
      (acc.length : ℤ) ≤ n →
      mcmcLoop idx mean sigma p e u n fuel k ops last acc = some (cs, m) →
      (cs.length : ℤ) = n := by
  intro fuel
  induction fuel with
  | zero =>
    intro k ops last acc cs m hle hres
    by_cases h : (acc.length : ℤ) < n
    · simp [mcmcLoop, h] at hres
    · rw [mcmcLoop_exit h] at hres
      obtain ⟨rfl, -⟩ : acc = cs ∧ k + 1 = m := by
        simpa using hres
      omega
  | succ fuel ih =>
    intro k ops last acc cs m hle hres
    by_cases h : (acc.length : ℤ) < n
    · by_cases hacc : u k < min 1
          (likelihood (|e (spliceOps ops idx (p k))|) sigma mean /
            likelihood last sigma mean)
      · rw [mcmcLoop_step_accept h hacc] at hres
        refine ih (k + 1) _ _ _ cs m ?_ hres
        simp only [List.length_append, List.length_singleton]
        push_cast
        omega
      · rw [mcmcLoop_step_reject h hacc] at hres
        exact ih (k + 1) _ _ _ cs m hle hres
    · rw [mcmcLoop_exit h] at hres
      obtain ⟨rfl, -⟩ : acc = cs ∧ k + 1 = m := by
        simpa using hres
      omega

/-- Claim C2: whenever `generate_circuits` returns and the requested count
is at least 1, the returned sequence holds exactly that many circuits. -/
theorem C2_returned_count_exact (cir : Circuit) (n : ℤ) (sigma : ℝ)
    (p : ℕ → List Operation) (e : Circuit → ℝ) (u : ℕ → ℝ) (fuel : ℕ)
    (cs : List Circuit) (m : ℕ) (hn : 1 ≤ n)
    (hres : generate_circuits cir n sigma p e u fuel = some (cs, m)) :
    (cs.length : ℤ) = n := by
  unfold generate_circuits at hres
  by_cases hdeg : (nonCliffordPairs cir).length = 0
  · simp only [hdeg, if_pos] at hres
    obtain ⟨rfl, -⟩ : List.replicate n.toNat cir = cs ∧ 0 = m := by
      simpa using hres
    simp [List.length_replicate, Int.toNat_of_nonneg (by omega : (0:ℤ) ≤ n)]
  · simp only [if_neg hdeg] at hres
    exact mcmcLoop_length _ _ _ _ _ _ _ fuel 0 cir _ [] cs m
      (by simp; omega) hres

/-- Claim C2 witness: a concrete run returning exactly 2 circuits. -/
theorem C2_returned_count_exact_witness :
    (1 : ℤ) ≤ 2 ∧ ((([circCl, circCl] : List Circuit).length : ℤ) = 2) :=
  ⟨by norm_num,
    C2_returned_count_exact circCl 2 1 proposalsW execZero usZero 0
      [circCl, circCl] 0 (by norm_num) (by rfl)⟩

/-- Claim C3: on a circuit all of whose operations have a stabilizer
effect, `generate_circuits` returns `n` copies of the input (structurally
identical, in fact the same circuit) with zero executor calls. -/
theorem C3_degenerate_input (cir : Circuit) (n : ℤ) (sigma : ℝ)
    (p : ℕ → List Operation) (e : Circuit → ℝ) (u : ℕ → ℝ) (fuel : ℕ)
    (hclif : ∀ op ∈ cir, hasStabilizerEffect op = true) (hn : 1 ≤ n) :
    generate_circuits cir n sigma p e u fuel =
        some (List.replicate n.toNat cir, 0) ∧
      ((List.replicate n.toNat cir).length : ℤ) = n ∧
      ∀ x ∈ List.replicate n.toNat cir, x = cir := by
  have hnil := nonCliffordPairs_eq_nil hclif
  refine ⟨?_, ?_, ?_⟩
  · unfold generate_circuits
    simp [hnil]
  · simp [List.length_replicate, Int.toNat_of_nonneg (by omega : (0:ℤ) ≤ n)]
  · intro x hx
    exact List.eq_of_mem_replicate hx

/-- Claim C3 witness: a concrete all-Clifford circuit, requested count 3,
no executor calls. -/
theorem C3_degenerate_input_witness :
    generate_circuits circCl 3 1 proposalsW execZero usZero 0 =
        some (List.replicate (3:ℤ).toNat circCl, 0) ∧
      ((List.replicate (3:ℤ).toNat circCl).length : ℤ) = 3 ∧
      ∀ x ∈ List.replicate (3:ℤ).toNat circCl, x = circCl :=
  C3_degenerate_input circCl 3 1 proposalsW execZero usZero 0
    (by decide) (by norm_num)

theorem mcmcLoop_always_accept (idx : List ℕ) (mean sigma : ℝ)
    (p : ℕ → List Operation) (e : Circuit → ℝ) (u : ℕ → ℝ) (n : ℤ)
    (hs : sigma ≠ 0) (hu : ∀ k, u k < 1)
    (he : ∀ x : Circuit, |e x| = mean) :
    ∀ (m fuel k : ℕ) (ops : List Operation) (acc : List Circuit),
      m ≤ fuel → (acc.length : ℤ) + m = n →
      Option.map (fun r : List Circuit × ℕ => (r.1.length, r.2))
          (mcmcLoop idx mean sigma p e u n fuel k ops mean acc) =
        some (acc.length + m, k + m + 1) := by
  intro m
  induction m with
  | zero =>
    intro fuel k ops acc hmf hsum
    rw [mcmcLoop_exit (by omega)]
    simp
  | succ m ih =>
    intro fuel k ops acc hmf hsum
    obtain ⟨fuel', rfl⟩ : ∃ f, fuel = f + 1 := ⟨fuel - 1, by omega⟩
    have hlt : (acc.length : ℤ) < n := by omega
    have hacc : u k < min 1
        (likelihood (|e (spliceOps ops idx (p k))|) sigma mean /
          likelihood mean sigma mean) := by
      rw [he, likelihood_self_ratio hs, min_self]
      exact hu k
    rw [mcmcLoop_step_accept hlt hacc, he]
    have := ih fuel' (k + 1) (spliceOps ops idx (p k))
      (acc ++ [spliceOps ops idx (p k)]) (by omega)
      (by simp only [List.length_append, List.length_singleton]; push_cast; omega)
    rw [this]
    simp only [List.length_append, List.length_singleton]
    congr 2 <;> omega

theorem generate_always_accept (cir : Circuit) (n : ℤ) (sigma : ℝ)
    (p : ℕ → List Operation) (e : Circuit → ℝ) (u : ℕ → ℝ) (fuel : ℕ)
    (hs : sigma ≠ 0) (hu : ∀ k, u k < 1)
    (he : ∀ x : Circuit, e x = e cir)
    (hnc : ¬ ((nonCliffordPairs cir).length = 0))
    (hn : 1 ≤ n) (hfuel : n.toNat ≤ fuel) :
    Option.map (fun r : List Circuit × ℕ => (r.1.length, r.2))
        (generate_circuits cir n sigma p e u fuel) =
      some (n.toNat, n.toNat + 1) := by
  unfold generate_circuits
  simp only [if_neg hnc]
  have he' : ∀ x : Circuit, |e x| = |e cir| := fun x => by rw [he x]
  have := mcmcLoop_always_accept (nonCliffordIndices cir) (|e cir|) sigma
    p e u n hs hu he' n.toNat fuel 0 cir [] hfuel
    (by simp [Int.toNat_of_nonneg (by omega : (0:ℤ) ≤ n)])
  simpa using this

/-- Claim C5: the mean expectation value costs exactly one executor call,
made before the proposal loop; when the executor returns the value of the
original circuit for every candidate, the likelihood ratio is 1, every
proposal is accepted, and `n` circuits are produced with exactly `n + 1`
executor calls in total. -/
theorem C5_always_accept_call_count (cir : Circuit) (n : ℤ) (sigma : ℝ)
    (p : ℕ → List Operation) (e : Circuit → ℝ) (u : ℕ → ℝ) (fuel : ℕ)
    (hs : sigma ≠ 0) (hu : ∀ k, u k < 1)
    (he : ∀ x : Circuit, e x = e cir)
    (hnc : ¬ ((nonCliffordPairs cir).length = 0))
    (hn : 1 ≤ n) (hfuel : n.toNat ≤ fuel) :
    Option.map (fun r : List Circuit × ℕ => (r.1.length, r.2))
        (generate_circuits cir n sigma p e u fuel) =
      some (n.toNat, n.toNat + 1) :=
  generate_always_accept cir n sigma p e u fuel hs hu he hnc hn hfuel

/-- Claim C5 witness: one non-Clifford operation, constant executor,
requested count 1, produced with 2 executor calls. -/
theorem C5_always_accept_call_count_witness :
    Option.map (fun r : List Circuit × ℕ => (r.1.length, r.2))
        (generate_circuits circNC 1 1 proposalsW execZero usZero 1) =
      some (1, 2) :=
  C5_always_accept_call_count circNC 1 1 proposalsW execZero usZero 1
    (by norm_num) (fun k => by norm_num [usZero]) (fun x => rfl)
    (by decide) (by norm_num) (by norm_num)

/-- Claim C7 (amended): `generate_circuits` does not validate the
requested count; for `n ≤ 0` it returns normally with an empty list. -/
theorem C7_nonpositive_count_returns_empty (cir : Circuit) (n : ℤ)
    (sigma : ℝ) (p : ℕ → List Operation) (e : Circuit → ℝ) (u : ℕ → ℝ)
    (fuel : ℕ) (hn : n ≤ 0) :
    Option.map Prod.fst (generate_circuits cir n sigma p e u fuel) =
      some [] := by
  unfold generate_circuits
  by_cases hdeg : (nonCliffordPairs cir).length = 0
  · simp [hdeg, Int.toNat_of_nonpos hn]
  · simp only [if_neg hdeg]
    rw [mcmcLoop_exit (by simp; omega)]
    simp

/-- Claim C7 witness: requested count -1 returns the empty list. -/
theorem C7_nonpositive_count_returns_empty_witness :
    Option.map Prod.fst
        (generate_circuits circNC (-1) 1 proposalsW execZero usZero 2) =
      some [] :=
  C7_nonpositive_count_returns_empty circNC (-1) 1 proposalsW execZero
    usZero 2 (by norm_num)

/-- Claim C7 counterexample: with requested count 0 on a non-degenerate
circuit the call is not rejected: it performs the mean executor call and
returns normally with an empty list. -/
theorem C7_counterexample_normal_return :
    generate_circuits circNC 0 1 proposalsW execZero usZero 3 =
      some ([], 1) := by
  rfl

/-- Claim C9: for positive sigma the acceptance computation is
well-defined: the likelihood of the last-accepted value is strictly
positive (so the ratio divides by a nonzero number) and the acceptance
probability lies in (0, 1]. -/
theorem C9_likelihood_positive (sigma mu cand last : ℝ) (hs : 0 < sigma) :
    0 < likelihood last sigma mu ∧
      likelihood last sigma mu ≠ 0 ∧
      0 < min 1 (likelihood cand sigma mu / likelihood last sigma mu) ∧
      min 1 (likelihood cand sigma mu / likelihood last sigma mu) ≤ 1 := by
  have hl := likelihood_pos hs last mu
  have hc := likelihood_pos hs cand mu
  exact ⟨hl, ne_of_gt hl, lt_min one_pos (div_pos hc hl), min_le_left _ _⟩

/-- Claim C9 witness: sigma 1, mean 0, candidate 2, last 0. -/
theorem C9_likelihood_positive_witness :
    0 < likelihood 0 1 0 ∧
      likelihood 0 1 0 ≠ 0 ∧
      0 < min 1 (likelihood 2 1 0 / likelihood 0 1 0) ∧
      min 1 (likelihood 2 1 0 / likelihood 0 1 0) ≤ 1 :=
  C9_likelihood_positive 1 0 2 0 (by norm_num)

/-- Claim C8 (amended): `standard_deviation` is never validated: a
negative sigma is accepted and the walk proceeds and completes normally
(the likelihoods are negative, their ratio positive), with nothing
reported to the caller. -/
theorem C8_negative_sigma_proceeds (cir : Circuit) (n : ℤ) (sigma : ℝ)
    (p : ℕ → List Operation) (e : Circuit → ℝ) (u : ℕ → ℝ) (fuel : ℕ)
    (hs : sigma < 0) (hu : ∀ k, u k < 1)
    (he : ∀ x : Circuit, e x = e cir)
    (hnc : ¬ ((nonCliffordPairs cir).length = 0))
    (hn : 1 ≤ n) (hfuel : n.toNat ≤ fuel) :
    Option.map (fun r : List Circuit × ℕ => (r.1.length, r.2))
        (generate_circuits cir n sigma p e u fuel) =
      some (n.toNat, n.toNat + 1) :=
  generate_always_accept cir n sigma p e u fuel (ne_of_lt hs) hu he hnc
    hn hfuel

/-- Claim C8 witness: sigma -1 on a concrete run. -/
theorem C8_negative_sigma_proceeds_witness :
    Option.map (fun r : List Circuit × ℕ => (r.1.length, r.2))
        (generate_circuits circNC 1 (-1) proposalsW execZero usZero 1) =
      some (1, 2) :=
  C8_negative_sigma_proceeds circNC 1 (-1) proposalsW execZero usZero 1
    (by norm_num) (fun k => by norm_num [usZero]) (fun x => rfl)
    (by decide) (by norm_num) (by norm_num)

/-- Claim C8 counterexample: a concrete call with the invalid
configuration sigma = -2 is not reported to the caller at call time or at
all: the generator proceeds through the walk and returns a normal result
of 2 circuits after 3 executor calls. -/
theorem C8_counterexample_negative_sigma_not_reported :
    Option.map (fun r : List Circuit × ℕ => (r.1.length, r.2))
        (generate_circuits circNC 2 (-2) proposalsW execZero usZero 2) =
      some (2, 3) :=
  generate_always_accept circNC 2 (-2) proposalsW execZero usZero 2
    (by norm_num) (fun k => by norm_num [usZero]) (fun x => rfl)
    (by decide) (by norm_num) (by norm_num)

theorem mcmcLoopFresh_exit {orig : List Operation} {idx : List ℕ}
    {mean sigma : ℝ} {proposals : ℕ → List Operation} {e : Circuit → ℝ}
    {us : ℕ → ℝ} {n : ℤ} {fuel k : ℕ} {last : ℝ} {acc : List Circuit}
    (h : ¬ ((acc.length : ℤ) < n)) :
    mcmcLoopFresh orig idx mean sigma proposals e us n fuel k last acc =
      some (acc, k + 1) := by
  cases fuel <;> simp [mcmcLoopFresh, h]

theorem mcmcLoopFresh_step_accept {orig : List Operation} {idx : List ℕ}
    {mean sigma : ℝ} {proposals : ℕ → List Operation} {e : Circuit → ℝ}
    {us : ℕ → ℝ} {n : ℤ} {fuel k : ℕ} {last : ℝ} {acc : List Circuit}
    (h : (acc.length : ℤ) < n)
    (hacc : us k < min 1
      (likelihood (|e (spliceOps orig idx (proposals k))|) sigma mean /
        likelihood last sigma mean)) :
    mcmcLoopFresh orig idx mean sigma proposals e us n (fuel + 1) k last
        acc =
      mcmcLoopFresh orig idx mean sigma proposals e us n fuel (k + 1)
        (|e (spliceOps orig idx (proposals k))|)
        (acc ++ [spliceOps orig idx (proposals k)]) := by
  simp only [mcmcLoopFresh, if_pos h, if_pos hacc]

theorem mcmcLoopFresh_step_reject {orig : List Operation} {idx : List ℕ}
    {mean sigma : ℝ} {proposals : ℕ → List Operation} {e : Circuit → ℝ}
    {us : ℕ → ℝ} {n : ℤ} {fuel k : ℕ} {last : ℝ} {acc : List Circuit}
    (h : (acc.length : ℤ) < n)
    (hrej : ¬ (us k < min 1
      (likelihood (|e (spliceOps orig idx (proposals k))|) sigma mean /
        likelihood last sigma mean))) :
    mcmcLoopFresh orig idx mean sigma proposals e us n (fuel + 1) k last
        acc =
      mcmcLoopFresh orig idx mean sigma proposals e us n fuel (k + 1)
        last acc := by
  simp only [mcmcLoopFresh, if_pos h, if_neg hrej]

theorem mcmcLoop_eq_fresh (orig : List Operation) (idx : List ℕ)
    (mean sigma : ℝ) (p : ℕ → List Operation) (e : Circuit → ℝ)
    (u : ℕ → ℝ) (n : ℤ) (hnd : idx.Nodup)
    (hlen : ∀ k, (p k).length = idx.length) :
    ∀ (fuel k : ℕ) (ops : List Operation) (last : ℝ) (acc : List Circuit),
      (∀ new : List Operation, new.length = idx.length →
        spliceOps ops idx new = spliceOps orig idx new) →
      mcmcLoop idx mean sigma p e u n fuel k ops last acc =
        mcmcLoopFresh orig idx mean sigma p e u n fuel k last acc := by
  intro fuel
  induction fuel with
  | zero => intro _ ops last acc _; rfl
  | succ fuel ih =>
    intro k ops last acc hinv
    have hcand : spliceOps ops idx (p k) = spliceOps orig idx (p k) :=
      hinv _ (hlen k)
    have hinv' : ∀ new : List Operation, new.length = idx.length →
        spliceOps (spliceOps orig idx (p k)) idx new =
          spliceOps orig idx new :=
      fun new hn => spliceOps_overwrite idx (p k) new orig hnd hn
    by_cases h : (acc.length : ℤ) < n
    · by_cases hacc : u k < min 1
          (likelihood (|e (spliceOps ops idx (p k))|) sigma mean /
            likelihood last sigma mean)
      · rw [mcmcLoop_step_accept h hacc,
          mcmcLoopFresh_step_accept h (by rw [← hcand]; exact hacc), hcand]
        exact ih (k + 1) _ _ _ hinv'
      · rw [mcmcLoop_step_reject h hacc,
          mcmcLoopFresh_step_reject h (by rw [← hcand]; exact hacc), hcand]
        exact ih (k + 1) _ _ _ hinv'
    · rw [mcmcLoop_exit h, mcmcLoopFresh_exit h]

theorem generate_eq_fresh (cir : Circuit) (n : ℤ) (sigma : ℝ)
    (p : ℕ → List Operation) (e : Circuit → ℝ) (u : ℕ → ℝ) (fuel : ℕ)
    (hlen : ∀ k, (p k).length = (nonCliffordIndices cir).length) :
    generate_circuits cir n sigma p e u fuel =
      generate_fresh cir n sigma p e u fuel := by
  unfold generate_circuits generate_fresh
  by_cases hdeg : (nonCliffordPairs cir).length = 0
  · simp [hdeg]
  · simp only [if_neg hdeg]
    exact mcmcLoop_eq_fresh cir (nonCliffordIndices cir) _ sigma p e u n
      (nonCliffordIndices_nodup cir) hlen fuel 0 cir _ []
      (fun new _ => rfl)

/-- Claim C10: although the shared operations array is mutated in place at
the non-Clifford indices on every proposal, every accepted candidate is
fixed at construction and reflects exactly the replacement assignment of
its own accepting round: the threaded loop of the source coincides with
the variant that rebuilds each candidate from the original operation list
of the input circuit.  The hypothesis is the mapper output-length
contract (numpy fancy-index assignment requires it). -/
theorem C10_accepted_circuits_frozen (cir : Circuit) (n : ℤ) (sigma : ℝ)
    (p : ℕ → List Operation) (e : Circuit → ℝ) (u : ℕ → ℝ) (fuel : ℕ)
    (hlen : ∀ k, (p k).length = (nonCliffordIndices cir).length) :
    generate_circuits cir n sigma p e u fuel =
      generate_fresh cir n sigma p e u fuel :=
  generate_eq_fresh cir n sigma p e u fuel hlen

/-- Claim C10 witness: concrete run of the threaded and fresh loops. -/
theorem C10_accepted_circuits_frozen_witness :
    generate_circuits circNC 1 1 proposalsW execZero usZero 2 =
      generate_fresh circNC 1 1 proposalsW execZero usZero 2 :=
  C10_accepted_circuits_frozen circNC 1 1 proposalsW execZero usZero 2
    (fun _ => rfl)

theorem qubitSet_eq_of_map_qubits {a b : Circuit}
    (h : a.map (fun op => op.qubits) = b.map (fun op => op.qubits)) :
    qubitSet a = qubitSet b := by
  unfold qubitSet
  rw [← List.foldr_map (fun op : Operation => op.qubits)
      (fun q s => q.toFinset ∪ s) a ∅,
    ← List.foldr_map (fun op : Operation => op.qubits)
      (fun q s => q.toFinset ∪ s) b ∅, h]

theorem splice_structure {cir : Circuit} {new : List Operation}
    (hmap : NearCliffordMap (nonCliffordOps cir) new) :
    (spliceOps cir (nonCliffordIndices cir) new).map
        (fun op => op.qubits) = cir.map (fun op => op.qubits) ∧
      (spliceOps cir (nonCliffordIndices cir) new).length = cir.length ∧
      ∀ (j : ℕ) (op : Operation), cir[j]? = some op →
        hasStabilizerEffect op = true →
        (spliceOps cir (nonCliffordIndices cir) new)[j]? = some op := by
  have hpairs_len : (nonCliffordIndices cir).length =
      (nonCliffordPairs cir).length := by
    simp [nonCliffordIndices]
  have hops_len : (nonCliffordOps cir).length =
      (nonCliffordPairs cir).length := by
    simp [nonCliffordOps]
  have hlen_new : new.length = (nonCliffordIndices cir).length := by
    have h1 := hmap.length_eq
    omega
  have hcliff : ∀ (j : ℕ) (op : Operation), cir[j]? = some op →
      hasStabilizerEffect op = true →
      (spliceOps cir (nonCliffordIndices cir) new)[j]? = some op := by
    intro j op hget hop
    have hj : j ∉ nonCliffordIndices cir := by
      intro hmem
      obtain ⟨pr, hpr, hfst⟩ := List.mem_map.mp hmem
      obtain ⟨hg, hnc⟩ := nonCliffordPairs_mem_iff.mp hpr
      rw [hfst, hget] at hg
      rw [← Option.some.inj hg, hop] at hnc
      exact Bool.noConfusion hnc
    rw [spliceOps_getElem?_not_mem (nonCliffordIndices cir) new cir hj]
    exact hget
  refine ⟨?_, spliceOps_length _ _ _, hcliff⟩
  apply List.ext_getElem?
  intro j
  rw [List.getElem?_map, List.getElem?_map]
  by_cases hjlen : j < cir.length
  · obtain ⟨op, hop⟩ : ∃ op, cir[j]? = some op :=
      ⟨cir.get ⟨j, hjlen⟩, List.getElem?_eq_getElem hjlen⟩
    by_cases hcl : hasStabilizerEffect op = true
    · rw [hcliff j op hop hcl, hop]
    · have hncl : hasStabilizerEffect op = false := by
        cases h2 : hasStabilizerEffect op
        · rfl
        · exact absurd h2 hcl
      have hjmem : j ∈ nonCliffordIndices cir :=
        mem_nonCliffordIndices_of_not_clifford hop hncl
      obtain ⟨⟨k, hk⟩, hkj⟩ := List.mem_iff_get.mp hjmem
      have hkp : k < (nonCliffordPairs cir).length := by omega
      have hknew : k < new.length := by omega
      have hkops : k < (nonCliffordOps cir).length := by omega
      have hsp : (spliceOps cir (nonCliffordIndices cir) new)[j]? =
          new[k]? := by
        rw [← hkj]
        exact spliceOps_getElem?_at_idx (nonCliffordIndices cir) new cir
          k hk (nonCliffordIndices_nodup cir) hlen_new
          (by rw [hkj]; exact hjlen)
      have hprfst : ((nonCliffordPairs cir).get ⟨k, hkp⟩).1 = j := by
        have h1 : (nonCliffordIndices cir)[k]? =
            some ((nonCliffordPairs cir).get ⟨k, hkp⟩).1 := by
          unfold nonCliffordIndices
          rw [List.getElem?_map, List.getElem?_eq_getElem hkp]
          rfl
        have h2 : (nonCliffordIndices cir)[k]? = some j := by
          rw [List.getElem?_eq_getElem hk, ← hkj]
          rfl
        rw [h1] at h2
        exact Option.some.inj h2
      have hprsnd : ((nonCliffordPairs cir).get ⟨k, hkp⟩).2 = op := by
        have h1 := (nonCliffordPairs_get cir k hkp).1
        rw [hprfst, hop] at h1
        exact (Option.some.inj h1).symm
      have hops_get : (nonCliffordOps cir).get ⟨k, hkops⟩ = op := by
        have h1 : (nonCliffordOps cir)[k]? =
            some ((nonCliffordPairs cir).get ⟨k, hkp⟩).2 := by
          unfold nonCliffordOps
          rw [List.getElem?_map, List.getElem?_eq_getElem hkp]
          rfl
        have h2 : (nonCliffordOps cir)[k]? =
            some ((nonCliffordOps cir).get ⟨k, hkops⟩) := by
          rw [List.getElem?_eq_getElem hkops]
          rfl
        rw [h2, hprsnd] at h1
        exact Option.some.inj h1
      have hfa := (List.forall₂_iff_get.mp hmap).2 k hkops hknew
      rw [hops_get] at hfa
      have hnew_get : new[k]? = some (new.get ⟨k, hknew⟩) := by
        rw [List.getElem?_eq_getElem hknew]
        rfl
      rw [hsp, hnew_get, hop]
      have hq := hfa.2
      simp only [List.get_eq_getElem] at hq
      simp [hq]
  · rw [List.getElem?_eq_none (by omega : cir.length ≤ j),
      List.getElem?_eq_none (by
        rw [spliceOps_length]; omega)]

theorem mcmcLoopFresh_all (orig : List Operation) (idx : List ℕ)
    (mean sigma : ℝ) (p : ℕ → List Operation) (e : Circuit → ℝ)
    (u : ℕ → ℝ) (n : ℤ) (P : Circuit → Prop)
    (hP : ∀ k, P (spliceOps orig idx (p k))) :
    ∀ (fuel k : ℕ) (last : ℝ) (acc : List Circuit) (cs : List Circuit)
      (m : ℕ), (∀ x ∈ acc, P x) →
      mcmcLoopFresh orig idx mean sigma p e u n fuel k last acc =
        some (cs, m) →
      ∀ x ∈ cs, P x := by
  intro fuel
  induction fuel with
  | zero =>
    intro k last acc cs m haccP hres
    by_cases h : (acc.length : ℤ) < n
    · simp [mcmcLoopFresh, h] at hres
    · rw [mcmcLoopFresh_exit h] at hres
      obtain ⟨rfl, -⟩ : acc = cs ∧ k + 1 = m := by simpa using hres
      exact haccP
  | succ fuel ih =>
    intro k last acc cs m haccP hres
    by_cases h : (acc.length : ℤ) < n
    · by_cases hc : u k < min 1
          (likelihood (|e (spliceOps orig idx (p k))|) sigma mean /
            likelihood last sigma mean)
      · rw [mcmcLoopFresh_step_accept h hc] at hres
        refine ih (k + 1) _ _ cs m ?_ hres
        intro x hx
        rcases List.mem_append.mp hx with hx | hx
        · exact haccP x hx
        · rw [List.mem_singleton.mp hx]
          exact hP k
      · rw [mcmcLoopFresh_step_reject h hc] at hres
        exact ih (k + 1) _ _ cs m haccP hres
    · rw [mcmcLoopFresh_exit h] at hres
      obtain ⟨rfl, -⟩ : acc = cs ∧ k + 1 = m := by simpa using hres
      exact haccP

/-- Claim C6: every returned circuit has the same qubit set and the same
operation count as the input, and carries the original operation at every
position whose original operation is Clifford; the hypothesis is the
spec-side contract of the near-Clifford mapper (same length, Clifford
output, qubit assignment preserved).  The input circuit itself, being a
value, is unchanged by the call. -/
theorem C6_structure_preserved (cir : Circuit) (n : ℤ) (sigma : ℝ)
    (p : ℕ → List Operation) (e : Circuit → ℝ) (u : ℕ → ℝ) (fuel : ℕ)
    (cs : List Circuit) (m : ℕ)
    (hmap : ∀ k, NearCliffordMap (nonCliffordOps cir) (p k))
    (hres : generate_circuits cir n sigma p e u fuel = some (cs, m)) :
    ∀ cir2 ∈ cs, qubitSet cir2 = qubitSet cir ∧
      cir2.length = cir.length ∧
      ∀ (j : ℕ) (op : Operation), cir[j]? = some op →
        hasStabilizerEffect op = true → cir2[j]? = some op := by
  have hlen : ∀ k, (p k).length = (nonCliffordIndices cir).length := by
    intro k
    have h1 := (hmap k).length_eq
    simp only [nonCliffordOps, nonCliffordIndices, List.length_map] at h1 ⊢
    omega
  rw [generate_eq_fresh cir n sigma p e u fuel hlen] at hres
  unfold generate_fresh at hres
  by_cases hdeg : (nonCliffordPairs cir).length = 0
  · simp only [if_pos hdeg] at hres
    obtain ⟨rfl, -⟩ : List.replicate n.toNat cir = cs ∧ 0 = m := by
      simpa using hres
    intro cir2 hc2
    rw [List.eq_of_mem_replicate hc2]
    exact ⟨rfl, rfl, fun j op hj _ => hj⟩
  · simp only [if_neg hdeg] at hres
    refine mcmcLoopFresh_all cir (nonCliffordIndices cir) _ sigma p e u n
      (fun cir2 => qubitSet cir2 = qubitSet cir ∧
        cir2.length = cir.length ∧
        ∀ (j : ℕ) (op : Operation), cir[j]? = some op →
          hasStabilizerEffect op = true → cir2[j]? = some op)
      (fun k => ?_) fuel 0 _ [] cs m (by simp) hres
    obtain ⟨hq, hl, hcl⟩ := splice_structure (hmap k)
    exact ⟨qubitSet_eq_of_map_qubits hq, hl, hcl⟩

theorem run_circMix :
    generate_circuits circMix 1 1 proposalsW execZero usZero 1 =
      some ([[opCl 7, opCl 1]], 2) := by
  simp only [generate_circuits]
  rw [if_neg (by decide : ¬ ((nonCliffordPairs circMix).length = 0))]
  have hm : |execZero circMix| = 0 := by
    simp [execZero]
  rw [hm]
  rw [mcmcLoop_step_accept (by norm_num)
    (by
      have hc : |execZero (spliceOps circMix (nonCliffordIndices circMix)
          (proposalsW 0))| = 0 := by
        simp [execZero]
      rw [hc, likelihood_self_ratio (by norm_num : (1:ℝ) ≠ 0) 0 0,
        min_self]
      norm_num [usZero])]
  rw [mcmcLoop_exit (by norm_num)]
  rfl

/-- Claim C6 witness: the concrete mixed circuit run keeps the qubit set,
the operation count and the Clifford operation at position 0. -/
theorem C6_structure_preserved_witness :
    qubitSet [opCl 7, opCl 1] = qubitSet circMix ∧
      ([opCl 7, opCl 1] : Circuit).length = circMix.length ∧
      ([opCl 7, opCl 1] : Circuit)[0]? = some (opCl 7) := by
  have h := C6_structure_preserved circMix 1 1 proposalsW execZero usZero
    1 [[opCl 7, opCl 1]] 2
    (fun k => List.Forall₂.cons ⟨rfl, rfl⟩ List.Forall₂.nil)
    run_circMix [opCl 7, opCl 1] (List.mem_singleton.mpr rfl)
  exact ⟨h.1, h.2.1, h.2.2 0 (opCl 7) rfl rfl⟩

theorem likelihood_2_eval : likelihood 2 1 0 =
    (1 / Real.sqrt (2 * Real.pi)) * Real.exp (-2) := by
  unfold likelihood
  norm_num

theorem likelihood_0_eval : likelihood 0 1 0 =
    1 / Real.sqrt (2 * Real.pi) := by
  unfold likelihood
  norm_num [Real.exp_zero]

theorem likelihood_ratio_2_le :
    likelihood 2 1 0 / likelihood 0 1 0 ≤ 0.9 := by
  rw [likelihood_2_eval, likelihood_0_eval]
  have hc : 1 / Real.sqrt (2 * Real.pi) ≠ 0 :=
    one_div_ne_zero (ne_of_gt (Real.sqrt_pos.mpr (by positivity)))
  rw [mul_div_cancel_left₀ _ hc, Real.exp_neg]
  have h3 : (3:ℝ) < Real.exp 2 := by
    have := Real.add_one_lt_exp (by norm_num : (2:ℝ) ≠ 0)
    linarith
  have hinv : (Real.exp 2)⁻¹ < (3:ℝ)⁻¹ :=
    inv_strictAnti₀ (by norm_num) h3
  norm_num at hinv ⊢
  linarith

theorem generate_run_usHigh :
    generate_circuits circNC 1 1 proposalsW execSplit usHigh 2 =
      some ([[opCl 2]], 3) := by
  simp only [generate_circuits]
  rw [if_neg (by decide : ¬ ((nonCliffordPairs circNC).length = 0))]
  have hidx : nonCliffordIndices circNC = [0] := rfl
  have hm : |execSplit circNC| = 0 := by
    rw [show execSplit circNC = 0 from if_neg (by decide)]
    simp
  rw [hidx, hm]
  have hrej : ¬ (usHigh 0 < min 1
      (likelihood (|execSplit (spliceOps circNC [0] (proposalsW 0))|) 1 0 /
        likelihood 0 1 0)) := by
    rw [show spliceOps circNC [0] (proposalsW 0) = [opCl 1] from rfl,
      show execSplit [opCl 1] = 2 from if_pos rfl,
      show |(2:ℝ)| = 2 from abs_of_nonneg (by norm_num),
      show usHigh 0 = 0.9 from if_pos rfl, not_lt]
    calc min 1 (likelihood 2 1 0 / likelihood 0 1 0) ≤
        likelihood 2 1 0 / likelihood 0 1 0 := min_le_right _ _
      _ ≤ 0.9 := likelihood_ratio_2_le
  rw [mcmcLoop_step_reject (by norm_num) hrej]
  rw [show spliceOps circNC [0] (proposalsW 0) = [opCl 1] from rfl]
  have hacc : usHigh 1 < min 1
      (likelihood (|execSplit (spliceOps [opCl 1] [0] (proposalsW 1))|) 1 0 /
        likelihood 0 1 0) := by
    rw [show spliceOps [opCl 1] [0] (proposalsW 1) = [opCl 2] from rfl,
      show execSplit [opCl 2] = 0 from if_neg (by decide), abs_zero,
      likelihood_self_ratio (by norm_num : (1:ℝ) ≠ 0) 0 0, min_self,
      show usHigh 1 = 0 from if_neg (by decide)]
    norm_num
  rw [mcmcLoop_step_accept (by norm_num) hacc]
  rw [mcmcLoop_exit (by simp)]
  rfl

theorem generate_run_usZero :
    generate_circuits circNC 1 1 proposalsW execSplit usZero 2 =
      some ([[opCl 1]], 2) := by
  simp only [generate_circuits]
  rw [if_neg (by decide : ¬ ((nonCliffordPairs circNC).length = 0))]
  have hidx : nonCliffordIndices circNC = [0] := rfl
  have hm : |execSplit circNC| = 0 := by
    rw [show execSplit circNC = 0 from if_neg (by decide)]
    simp
  rw [hidx, hm]
  have hacc : usZero 0 < min 1
      (likelihood (|execSplit (spliceOps circNC [0] (proposalsW 0))|) 1 0 /
        likelihood 0 1 0) := by
    rw [show usZero 0 = 0 from rfl]
    exact lt_min one_pos (div_pos
      (likelihood_pos (by norm_num) _ 0) (likelihood_pos (by norm_num) 0 0))
  rw [mcmcLoop_step_accept (by norm_num) hacc]
  rw [mcmcLoop_exit (by simp)]
  rfl

/-- Claim C4 (refuted, code bug): two invocations with the same input
circuit, the same requested count, an identically seeded random source
(the proposal stream drawn from `self._random_state`) and an identical
deterministic executor can return different sequences, because the
acceptance draw `random.random()` comes from the unseeded global random
module; here the two runs differ only in that global stream. -/
theorem C4_global_random_breaks_determinism :
    generate_circuits circNC 1 1 proposalsW execSplit usHigh 2 ≠
      generate_circuits circNC 1 1 proposalsW execSplit usZero 2 := by
  rw [generate_run_usHigh, generate_run_usZero]
  decide

end MitiqCdr
